import Mathlib

/-!
Verification of the column-summation utility (`src/eval/data_time/count.py`).

The script is embedded shallowly:

* Python `float` values are modelled by `Count.PyFloat`: finite values are
  exact rationals (IEEE-754 rounding and overflow-to-infinity are not
  modelled), plus the special values `inf`, `-inf` and `nan` that `float()`
  can produce from strings.
* `float(s)` on a string is `Count.pyFloatOfString`, a direct transcription
  of CPython's string-to-float grammar: optional surrounding ASCII
  whitespace, an optional sign, then either `inf`/`infinity`/`nan`
  (case-insensitive) or a decimal literal whose digit groups may be
  separated by single underscores, with an optional fraction and an optional
  signed exponent.
* `open(file_path)` + `csv.reader(file)` is modelled by a map from paths to
  `Count.OpenResult`: either the stream of CSV records the reader yields
  (each record a list of string fields), or one of the two `open` failures
  relevant to the script — `FileNotFoundError` (which the script catches)
  and `PermissionError` (an `OSError` that is not a `FileNotFoundError`,
  hence uncaught).
* `print` calls are collected as a list of `Count.OutLine` events, one
  constructor per message template.
* An uncaught Python exception is an `Except.error` carrying a
  `Count.PyError`; lines printed before a crash are not tracked on the
  error path, only the fact of abnormal termination.
-/

namespace Count

/-- Value of a Python `float`.  Finite values are kept as exact rationals;
`inf b` is `-inf` when `b = true`, else `+inf`. -/
inductive PyFloat where
  | finite (q : ℚ)
  | inf (neg : Bool)
  | nan
deriving DecidableEq

/-- Python `+` on floats, over the exact-rational model: `nan` absorbs,
opposite infinities give `nan`, finite addition is exact. -/
def PyFloat.add : PyFloat → PyFloat → PyFloat
  | .nan, _ => .nan
  | _, .nan => .nan
  | .inf b, .inf c => if b = c then .inf b else .nan
  | .inf b, .finite _ => .inf b
  | .finite _, .inf c => .inf c
  | .finite q, .finite r => .finite (q + r)

/-- The ASCII whitespace characters `float()` strips from both ends. -/
def isPySpace (c : Char) : Bool :=
  c = ' ' || c = '\t' || c = '\n' || c = '\r' || c = '\x0b' || c = '\x0c'

/-- Strip leading and trailing whitespace, as `float()` does. -/
def stripWS (cs : List Char) : List Char :=
  ((cs.dropWhile isPySpace).reverse.dropWhile isPySpace).reverse

/-- Consume an optional sign; returns `(negative?, rest)`. -/
def dropSign : List Char → Bool × List Char
  | [] => (false, [])
  | c :: r =>
      if c = '+' then (false, r)
      else if c = '-' then (true, r)
      else (false, c :: r)

/-- After a first digit, consume `(["_"] digit | digit)*`: an underscore is
accepted only when a digit follows it (CPython allows a single underscore
between digits only).  Returns the digits read (underscores dropped) and
the unconsumed rest. -/
def digTail : List Char → List Char × List Char
  | [] => ([], [])
  | c :: rest =>
      if c = '_' then
        match rest with
        | c2 :: rest2 =>
            if c2.isDigit then
              let p := digTail rest2
              (c2 :: p.1, p.2)
            else ([], c :: rest)
        | [] => ([], c :: rest)
      else if c.isDigit then
        let p := digTail rest
        (c :: p.1, p.2)
      else ([], c :: rest)

/-- CPython `digitpart`: `digit (["_"] digit)*`.  Returns the digits
(underscores dropped) and the rest, or `none` if no leading digit. -/
def digitPart : List Char → Option (List Char × List Char)
  | [] => none
  | c :: rest =>
      if c.isDigit then
        let p := digTail rest
        some (c :: p.1, p.2)
      else none

/-- Numeric value of a digit string. -/
def natOfDigits (ds : List Char) : ℕ :=
  ds.foldl (fun n c => 10 * n + (c.toNat - 48)) 0

/-- Exact value of a decimal literal with integer digits `ids`, fraction
digits `fds` and decimal exponent `exp`, negated when `neg`. -/
def decValue (neg : Bool) (ids fds : List Char) (exp : ℤ) : ℚ :=
  let m : ℚ := (natOfDigits (ids ++ fds) : ℚ)
  let e : ℤ := exp - fds.length
  let q : ℚ := if 0 ≤ e then m * ((10 : ℕ) ^ e.toNat : ℕ) else m / ((10 : ℕ) ^ (-e).toNat : ℕ)
  if neg then -q else q

/-- Parse the optional exponent `("e"|"E") [sign] digitpart` and require the
end of input, yielding the finite value. -/
def finishNumber (neg : Bool) (ids fds rest : List Char) : Option PyFloat :=
  match rest with
  | [] => some (.finite (decValue neg ids fds 0))
  | e :: r1 =>
      if e = 'e' || e = 'E' then
        let p := dropSign r1
        match digitPart p.2 with
        | some (eds, []) =>
            some (.finite (decValue neg ids fds
              (if p.1 then -(natOfDigits eds : ℤ) else (natOfDigits eds : ℤ))))
        | _ => none
      else none

/-- CPython `float(s)` for a string argument: strip ASCII whitespace, read an
optional sign, then either a case-insensitive `inf`/`infinity`/`nan` keyword
or a decimal literal `digitpart ["." [digitpart]] | "." digitpart` followed
by an optional exponent; anything else raises `ValueError`, modelled as
`none`. -/
def pyFloatOfString (s : String) : Option PyFloat :=
  let cs := stripWS s.toList
  let p := dropSign cs
  let neg := p.1
  let body := p.2
  let lower := body.map Char.toLower
  if lower = "inf".toList || lower = "infinity".toList then some (.inf neg)
  else if lower = "nan".toList then some .nan
  else
    match digitPart body with
    | some (ids, r1) =>
        match r1 with
        | '.' :: r2 =>
            match digitPart r2 with
            | some (fds, r3) => finishNumber neg ids fds r3
            | none => finishNumber neg ids [] r2
        | _ => finishNumber neg ids [] r1
    | none =>
        match body with
        | '.' :: r2 =>
            match digitPart r2 with
            | some (fds, r3) => finishNumber neg [] fds r3
            | none => none
        | _ => none

/-- Outcome of `open(file_path, mode='r')` followed by `csv.reader(file)`:
either the record stream (CSV quoting already applied by the reader), or a
failure of `open`.  `fileNotFound` is `FileNotFoundError` (caught by the
script); `permissionDenied` is `PermissionError`, an `OSError` that is not
a `FileNotFoundError` and hence not caught. -/
inductive OpenResult where
  | ok (rows : List (List String))
  | fileNotFound
  | permissionDenied
deriving DecidableEq

/-- An uncaught Python exception terminating the program abnormally. -/
inductive PyError where
  | indexError
  | permissionError
deriving DecidableEq

/-- One printed line.  The constructors correspond to the three `print`
templates of the script, in order: `Skipping invalid value: {raw}`,
`File not found: {path}`, `The sum of the second column is: {total}`. -/
inductive OutLine where
  | skippingInvalid (raw : String)
  | fileNotFound (path : String)
  | sumLine (total : PyFloat)
deriving DecidableEq

/-- Body of the `for row in reader` loop: when `len(row) > 1`, evaluate
`row[8]` — an `IndexError` when the row has at most 8 fields, and the inner
handler catches only `ValueError` — then `float(row[8])`, adding on success
and printing the skip diagnostic on `ValueError`. -/
def processRow (total : PyFloat) (out : List OutLine) (row : List String) :
    Except PyError (PyFloat × List OutLine) :=
  if 1 < row.length then
    match row[8]? with
    | none => .error .indexError
    | some s =>
        match pyFloatOfString s with
        | some v => .ok (total.add v, out)
        | none => .ok (total, out ++ [.skippingInvalid s])
  else .ok (total, out)

/-- The `for row in reader` loop: fold `processRow` over the record stream,
aborting on an uncaught exception. -/
def processRows (total : PyFloat) (out : List OutLine) :
    List (List String) → Except PyError (PyFloat × List OutLine)
  | [] => .ok (total, out)
  | row :: rest =>
      match processRow total out row with
      | .ok p => processRows p.1 p.2 rest
      | .error e => .error e

/-- `sum_second_column(file_path)`: `total = 0`; open and iterate the
reader; on `FileNotFoundError` print the missing-file diagnostic; return
`total` with the lines printed so far.  A `PermissionError` from `open`, or
an `IndexError` from a row, is not caught here. -/
def sum_second_column (fs : String → OpenResult) (file_path : String) :
    Except PyError (PyFloat × List OutLine) :=
  match fs file_path with
  | .ok rows => processRows (.finite 0) [] rows
  | .fileNotFound => .ok (.finite 0, [.fileNotFound file_path])
  | .permissionDenied => .error .permissionError

/-- The module top level: `file_path = sys.argv[1]` (an `IndexError` when
`sys.argv` has no second element), then
`result = sum_second_column(file_path)` and the final print.  The result is
the full list of printed lines, or the uncaught exception. -/
def mainProgram (argv : List String) (fs : String → OpenResult) :
    Except PyError (List OutLine) :=
  match argv[1]? with
  | none => .error .indexError
  | some file_path =>
      match sum_second_column fs file_path with
      | .ok p => .ok (p.2 ++ [.sumLine p.1])
      | .error e => .error e

/-- The record stream the program would read at `file_path`: empty when the
file cannot be opened. -/
def rowsOf (fs : String → OpenResult) (file_path : String) : List (List String) :=
  match fs file_path with
  | .ok rows => rows
  | _ => []

/-- Spec-side contribution of one row to the accumulator: the parsed value
at index 8 when it parses, else nothing. -/
def specStep (t : PyFloat) (r : List String) : PyFloat :=
  match r[8]? with
  | some s =>
      match pyFloatOfString s with
      | some v => t.add v
      | none => t
  | none => t

/-- Spec-side column sum: over exactly the rows with more than one field,
the sum of the values at index 8 that parse, starting from zero. -/
def specColumnSum (rows : List (List String)) : PyFloat :=
  (rows.filter fun r => 1 < r.length).foldl specStep (.finite 0)

/-- Mantissa of the spec-side numeric grammar (see `specFloatLiteral`):
`digit+ ["." digit*] | "." digit+`.  Returns the rest of the input after the
mantissa, or `none` when the input does not start with a mantissa. -/
def specMantissaRest (cs : List Char) : Option (List Char) :=
  if (cs.takeWhile Char.isDigit).isEmpty then
    match cs with
    | '.' :: r2 =>
        if (r2.takeWhile Char.isDigit).isEmpty then none
        else some (r2.dropWhile Char.isDigit)
    | _ => none
  else
    match cs.dropWhile Char.isDigit with
    | '.' :: r2 => some (r2.dropWhile Char.isDigit)
    | r => some r

/-- Exponent tail of the spec-side numeric grammar: empty, or
`("e"|"E") [+-]? digit+` reaching the end of the input. -/
def specExpRest (cs : List Char) : Bool :=
  match cs with
  | [] => true
  | e :: r1 =>
      (e = 'e' || e = 'E') &&
        (let r2 := (dropSign r1).2
         !r2.isEmpty && r2.all Char.isDigit)

/-- Spec-side numeric grammar, read off the spec's words: "a base-10
floating-point number (optionally signed, optional decimal point, optional
exponent)" — `[+-]? (digit+ ["." digit*] | "." digit+) [("e"|"E") [+-]? digit+]`,
with no surrounding whitespace, no underscores and no `inf`/`nan` keywords. -/
def specFloatLiteral (s : String) : Bool :=
  match specMantissaRest (dropSign s.toList).2 with
  | some r => specExpRest r
  | none => false

/-- Characters that can occur in a spec-side numeric literal: digits, signs,
the decimal point and the exponent markers. -/
def plainChar (c : Char) : Bool :=
  c.isDigit || c = '+' || c = '-' || c = '.' || c = 'e' || c = 'E'

/-- Whether a printed line is the final-total line. -/
def isSumLine : OutLine → Bool
  | .sumLine _ => true
  | _ => false

/-- The output ends with the final-total line, printed exactly once. -/
def endsWithOneSum (out : List OutLine) : Prop :=
  ∃ pre t, out = pre ++ [OutLine.sumLine t] ∧ ∀ l ∈ pre, isSumLine l = false

end Count

open Count

/-- Auxiliary: a normally completed `processRow` leaves the accumulator at
`specStep` of the old one when the row passes the length guard, unchanged
otherwise. -/
theorem processRow_total (t : PyFloat) (out : List OutLine) (row : List String)
    (p : PyFloat × List OutLine) (h : processRow t out row = .ok p) :
    p.1 = if 1 < row.length then specStep t row else t := by
  unfold processRow at h
  split at h
  · next hl =>
      rw [if_pos hl]
      cases h8 : row[8]? with
      | none => rw [h8] at h; cases h
      | some s =>
          rw [h8] at h
          simp only at h
          cases hp : pyFloatOfString s with
          | none =>
              rw [hp] at h
              simp only [specStep, h8, hp]
              injection h with h'
              rw [← h']
          | some v =>
              rw [hp] at h
              simp only [specStep, h8, hp]
              injection h with h'
              rw [← h']
  · next hl => rw [if_neg hl]; injection h with h'; rw [← h']

/-- Auxiliary: a normally completed `processRow` only ever appends
skip diagnostics to the output. -/
theorem processRow_out (t : PyFloat) (out : List OutLine) (row : List String)
    (p : PyFloat × List OutLine) (h : processRow t out row = .ok p) :
    ∀ l ∈ p.2, l ∈ out ∨ ∃ raw, l = OutLine.skippingInvalid raw := by
  unfold processRow at h
  split at h
  · next hl =>
      cases h8 : row[8]? with
      | none => rw [h8] at h; cases h
      | some s =>
          rw [h8] at h
          simp only at h
          cases hp : pyFloatOfString s with
          | none =>
              rw [hp] at h; injection h with h'
              intro l hm
              rw [← h'] at hm
              rcases List.mem_append.mp hm with hIn | hNew
              · exact Or.inl hIn
              · exact Or.inr ⟨s, List.mem_singleton.mp hNew⟩
          | some v =>
              rw [hp] at h; injection h with h'
              intro l hm; rw [← h'] at hm; exact Or.inl hm
  · next hl =>
      injection h with h'
      intro l hm; rw [← h'] at hm; exact Or.inl hm

/-- Auxiliary: a row that is short (at most one field) or long enough for
index 8 is processed without an uncaught exception. -/
theorem processRow_ok_of_good (t : PyFloat) (out : List OutLine) (row : List String)
    (h : row.length ≤ 1 ∨ 9 ≤ row.length) :
    ∃ p, processRow t out row = .ok p := by
  rcases h with h | h
  · exact ⟨(t, out), by unfold processRow; rw [if_neg (by omega)]⟩
  · cases h8 : row[8]? with
    | none =>
        have := List.getElem?_eq_none_iff.mp h8
        omega
    | some s =>
        cases hp : pyFloatOfString s with
        | none =>
            exact ⟨(t, out ++ [OutLine.skippingInvalid s]),
              by simp [processRow, h8, hp, show 1 < row.length from by omega]⟩
        | some v =>
            exact ⟨(t.add v, out),
              by simp [processRow, h8, hp, show 1 < row.length from by omega]⟩

/-- Auxiliary: the accumulator of a normally completed loop is the
`specStep`-fold over the rows passing the length guard. -/
theorem processRows_total (rows : List (List String)) :
    ∀ t out t' out', processRows t out rows = .ok (t', out') →
      t' = (rows.filter fun r => 1 < r.length).foldl specStep t := by
  induction rows with
  | nil =>
      intro t out t' out' h
      unfold processRows at h
      injection h with h'
      injection h' with h1 h2
      simp [← h1]
  | cons row rest ih =>
      intro t out t' out' h
      unfold processRows at h
      cases hp : processRow t out row with
      | error e => rw [hp] at h; cases h
      | ok p =>
          rw [hp] at h
          have htot := processRow_total t out row p hp
          have hrec := ih p.1 p.2 t' out' h
          rw [hrec]
          by_cases hl : 1 < row.length
          · rw [List.filter_cons_of_pos (by simp [hl]), List.foldl_cons, htot, if_pos hl]
          · rw [List.filter_cons_of_neg (by simp [hl]), htot, if_neg hl]

/-- Auxiliary: a row list whose rows are all short or long enough is
processed to normal completion, and only skip diagnostics are emitted. -/
theorem processRows_good (rows : List (List String)) :
    (∀ r ∈ rows, r.length ≤ 1 ∨ 9 ≤ r.length) →
    ∀ t out, ∃ p, processRows t out rows = .ok p ∧
      ∀ l ∈ p.2, l ∈ out ∨ ∃ raw, l = OutLine.skippingInvalid raw := by
  induction rows with
  | nil => intro _ t out; exact ⟨(t, out), rfl, fun l hl => Or.inl hl⟩
  | cons row rest ih =>
      intro hrows t out
      obtain ⟨q, hq⟩ := processRow_ok_of_good t out row (hrows row (List.mem_cons_self row rest))
      obtain ⟨p, hp, hlines⟩ := ih (fun r hr => hrows r (List.mem_cons_of_mem row hr)) q.1 q.2
      refine ⟨p, ?_, ?_⟩
      · unfold processRows
        rw [hq]
        exact hp
      · intro l hl
        rcases hlines l hl with hq2 | hskip
        · exact processRow_out t out row q hq l hq2
        · exact Or.inr hskip

/-- C10: invoked with no command-line argument (an `argv` holding only the
program name), the top-level `sys.argv[1]` raises an uncaught `IndexError`
and the program terminates abnormally, so no final total line is printed. -/
theorem C10_missing_argument_crash (prog : String) (fs : String → OpenResult) :
    mainProgram [prog] fs = .error PyError.indexError := rfl

/-- C7: a row with fewer than two fields is silently skipped — the
accumulator and the printed output are both unchanged. -/
theorem C7_short_row_silent (t : PyFloat) (out : List OutLine) (row : List String)
    (h : row.length ≤ 1) :
    processRow t out row = .ok (t, out) := by
  unfold processRow
  rw [if_neg (by omega)]

/-- C7 witness at the single-field row of concrete scenario D. -/
theorem C7_short_row_silent_witness :
    (["onlyone"] : List String).length ≤ 1 ∧
      processRow (.finite 0) [] ["onlyone"] = .ok (.finite 0, []) :=
  ⟨by decide, C7_short_row_silent (.finite 0) [] ["onlyone"] (by decide)⟩

/-- C3: a row with 2 to 8 fields passes the length guard, and `row[8]`
raises an out-of-range `IndexError`; the handler catches only `ValueError`
(the `.ok`-producing skip branch), so the exception escapes `processRow`
uncaught. -/
theorem C3_index_error_uncaught (row : List String) (h2 : 2 ≤ row.length)
    (h8 : row.length ≤ 8) (t : PyFloat) (out : List OutLine) :
    processRow t out row = .error PyError.indexError := by
  unfold processRow
  rw [if_pos (by omega), List.getElem?_eq_none (by omega)]

/-- C3 witness at a concrete two-field row. -/
theorem C3_index_error_uncaught_witness :
    2 ≤ (["a", "b"] : List String).length ∧ (["a", "b"] : List String).length ≤ 8 ∧
      processRow (.finite 0) [] ["a", "b"] = .error PyError.indexError :=
  ⟨by decide, by decide,
    C3_index_error_uncaught ["a", "b"] (by decide) (by decide) (.finite 0) []⟩

/-- C4: for a path that cannot be found, the missing-file diagnostic naming
that path is printed, no rows are processed, and the program goes on to
print a total of zero. -/
theorem C4_missing_file_recovered (prog path : String) (fs : String → OpenResult)
    (h : fs path = OpenResult.fileNotFound) :
    mainProgram [prog, path] fs =
      .ok [OutLine.fileNotFound path, OutLine.sumLine (.finite 0)] := by
  simp [mainProgram, sum_second_column, h]

/-- C4 witness at the concrete scenario-C path. -/
theorem C4_missing_file_recovered_witness :
    (fun _ : String => OpenResult.fileNotFound) "/nonexistent/file.csv" = OpenResult.fileNotFound ∧
      mainProgram ["count.py", "/nonexistent/file.csv"] (fun _ => OpenResult.fileNotFound) =
        .ok [OutLine.fileNotFound "/nonexistent/file.csv", OutLine.sumLine (.finite 0)] :=
  ⟨rfl, C4_missing_file_recovered "count.py" "/nonexistent/file.csv"
    (fun _ => OpenResult.fileNotFound) rfl⟩

/-- C6: a row whose field at index 8 exists but fails float parsing gets
exactly one `Skipping invalid value` diagnostic carrying the raw text, the
accumulator is unchanged, and the loop continues normally. -/
theorem C6_invalid_value_diagnostic (t : PyFloat) (out : List OutLine)
    (row : List String) (s : String)
    (h8 : row[8]? = some s) (hp : pyFloatOfString s = none) :
    processRow t out row = .ok (t, out ++ [OutLine.skippingInvalid s]) := by
  have hlen : 8 < row.length := (List.getElem?_eq_some.mp h8).1
  simp [processRow, h8, hp, show 1 < row.length from by omega]

/-- C6 witness at the concrete scenario-B row. -/
theorem C6_invalid_value_diagnostic_witness :
    (["a", "b", "c", "d", "e", "f", "g", "h", "notanumber"] : List String)[8]? =
        some "notanumber" ∧
      pyFloatOfString "notanumber" = none ∧
      processRow (.finite 0) [] ["a", "b", "c", "d", "e", "f", "g", "h", "notanumber"] =
        .ok (.finite 0, [OutLine.skippingInvalid "notanumber"]) :=
  ⟨rfl, by decide,
    C6_invalid_value_diagnostic (.finite 0) []
      ["a", "b", "c", "d", "e", "f", "g", "h", "notanumber"] "notanumber" rfl (by decide)⟩

/-- C9: the program is a deterministic function of the opened file's
content — two runs over file systems that agree at the given path produce
identical results (in particular identical printed totals). -/
theorem C9_deterministic (prog path : String) (fs₁ fs₂ : String → OpenResult)
    (h : fs₁ path = fs₂ path) :
    mainProgram [prog, path] fs₁ = mainProgram [prog, path] fs₂ := by
  have e₁ : mainProgram [prog, path] fs₁ =
      (match sum_second_column fs₁ path with
        | .ok p => .ok (p.2 ++ [OutLine.sumLine p.1])
        | .error e => .error e) := rfl
  have e₂ : mainProgram [prog, path] fs₂ =
      (match sum_second_column fs₂ path with
        | .ok p => .ok (p.2 ++ [OutLine.sumLine p.1])
        | .error e => .error e) := rfl
  rw [e₁, e₂]
  unfold sum_second_column
  rw [h]

/-- C9 witness: two identical runs over the scenario-A file. -/
theorem C9_deterministic_witness :
    (fun _ : String => OpenResult.ok [["a", "b", "c", "d", "e", "f", "g", "h", "10.5"]]) "d.csv" =
        (fun _ : String => OpenResult.ok [["a", "b", "c", "d", "e", "f", "g", "h", "10.5"]]) "d.csv" ∧
      mainProgram ["count.py", "d.csv"]
          (fun _ => OpenResult.ok [["a", "b", "c", "d", "e", "f", "g", "h", "10.5"]]) =
        mainProgram ["count.py", "d.csv"]
          (fun _ => OpenResult.ok [["a", "b", "c", "d", "e", "f", "g", "h", "10.5"]]) :=
  ⟨rfl, C9_deterministic "count.py" "d.csv" _ _ rfl⟩

/-- C2: whenever `sum_second_column` completes normally, the returned
accumulator equals the sum — started at zero — of the index-8 values that
parse as floats, over exactly the rows with more than one field. -/
theorem C2_accumulator_invariant (fs : String → OpenResult) (path : String)
    (total : PyFloat) (out : List OutLine)
    (h : sum_second_column fs path = .ok (total, out)) :
    total = specColumnSum (rowsOf fs path) := by
  unfold sum_second_column at h
  unfold rowsOf
  cases hfs : fs path with
  | ok rows =>
      rw [hfs] at h
      exact processRows_total rows (.finite 0) [] total out h
  | fileNotFound =>
      rw [hfs] at h
      injection h with h'
      injection h' with h1 h2
      rw [← h1]
      rfl
  | permissionDenied => rw [hfs] at h; cases h

/-- C2 witness at a concrete file with one unparsable long row and one
short row: the returned accumulator is zero, matching the spec-side sum. -/
theorem C2_accumulator_invariant_witness :
    sum_second_column
        (fun _ => OpenResult.ok [["a", "b", "c", "d", "e", "f", "g", "h", "notanumber"],
          ["onlyone"]]) "data.csv" =
      .ok (.finite 0, [OutLine.skippingInvalid "notanumber"]) ∧
    PyFloat.finite 0 = specColumnSum (rowsOf
        (fun _ => OpenResult.ok [["a", "b", "c", "d", "e", "f", "g", "h", "notanumber"],
          ["onlyone"]]) "data.csv") :=
  ⟨rfl,
    C2_accumulator_invariant _ "data.csv" (.finite 0)
      [OutLine.skippingInvalid "notanumber"] rfl⟩

/-- C1 counterexample: on a readable file whose single row has two fields,
the program terminates abnormally with an uncaught `IndexError` instead of
printing the final total line. -/
theorem C1_counterexample :
    mainProgram ["count.py", "data.csv"] (fun _ => OpenResult.ok [["a", "b"]]) =
      .error PyError.indexError := rfl

/-- C1 (amended): for every input file that is absent, or readable with
every row having fewer than 2 or at least 9 fields, the program terminates
normally and prints the final total line exactly once, at the end. -/
theorem C1_always_total_line_amended (prog path : String) (fs : String → OpenResult)
    (h : fs path = OpenResult.fileNotFound ∨
      ∃ rows, fs path = OpenResult.ok rows ∧ ∀ r ∈ rows, r.length ≤ 1 ∨ 9 ≤ r.length) :
    ∃ out, mainProgram [prog, path] fs = .ok out ∧ endsWithOneSum out := by
  rcases h with h | ⟨rows, hfs, hrows⟩
  · refine ⟨[OutLine.fileNotFound path, OutLine.sumLine (.finite 0)], ?_, ?_⟩
    · simp [mainProgram, sum_second_column, h]
    · refine ⟨[OutLine.fileNotFound path], .finite 0, rfl, ?_⟩
      intro l hl
      rw [List.mem_singleton.mp hl]
      rfl
  · obtain ⟨p, hp, hlines⟩ := processRows_good rows hrows (.finite 0) []
    refine ⟨p.2 ++ [OutLine.sumLine p.1], ?_, ?_⟩
    · simp [mainProgram, sum_second_column, hfs, hp]
    · refine ⟨p.2, p.1, rfl, ?_⟩
      intro l hl
      rcases hlines l hl with hnil | ⟨raw, hraw⟩
      · exact absurd hnil (List.not_mem_nil l)
      · rw [hraw]; rfl

/-- C1 witness at a concrete readable one-row file with nine fields. -/
theorem C1_always_total_line_amended_witness :
    ((fun _ : String => OpenResult.ok [["a", "b", "c", "d", "e", "f", "g", "h", "10.5"]])
          "data.csv" = OpenResult.fileNotFound ∨
      ∃ rows,
        (fun _ : String => OpenResult.ok [["a", "b", "c", "d", "e", "f", "g", "h", "10.5"]])
            "data.csv" = OpenResult.ok rows ∧
          ∀ r ∈ rows, r.length ≤ 1 ∨ 9 ≤ r.length) ∧
    ∃ out,
      mainProgram ["count.py", "data.csv"]
          (fun _ => OpenResult.ok [["a", "b", "c", "d", "e", "f", "g", "h", "10.5"]]) =
        .ok out ∧ endsWithOneSum out :=
  ⟨Or.inr ⟨_, rfl, by decide⟩,
    C1_always_total_line_amended "count.py" "data.csv" _ (Or.inr ⟨_, rfl, by decide⟩)⟩

/-- C5 counterexample: for an existing but unreadable file, the
`PermissionError` from `open` is not caught — the program terminates
abnormally rather than recovering and printing the total. -/
theorem C5_counterexample :
    mainProgram ["count.py", "secret.csv"] (fun _ => OpenResult.permissionDenied) =
      .error PyError.permissionError := rfl

/-- C5 (amended): only the missing-file failure is recovered — logged,
empty result set, accumulator still zero, final total printed; an existing
but unreadable file raises an uncaught `PermissionError`, terminating the
program abnormally. -/
theorem C5_only_missing_file_recovered (prog path : String)
    (fs₁ fs₂ : String → OpenResult)
    (h₁ : fs₁ path = OpenResult.fileNotFound)
    (h₂ : fs₂ path = OpenResult.permissionDenied) :
    mainProgram [prog, path] fs₁ =
        .ok [OutLine.fileNotFound path, OutLine.sumLine (.finite 0)] ∧
      mainProgram [prog, path] fs₂ = .error PyError.permissionError := by
  constructor
  · simp [mainProgram, sum_second_column, h₁]
  · simp [mainProgram, sum_second_column, h₂]

/-- C5 witness at concrete missing and unreadable files. -/
theorem C5_only_missing_file_recovered_witness :
    (fun _ : String => OpenResult.fileNotFound) "f.csv" = OpenResult.fileNotFound ∧
    (fun _ : String => OpenResult.permissionDenied) "f.csv" = OpenResult.permissionDenied ∧
    (mainProgram ["count.py", "f.csv"] (fun _ => OpenResult.fileNotFound) =
        .ok [OutLine.fileNotFound "f.csv", OutLine.sumLine (.finite 0)] ∧
      mainProgram ["count.py", "f.csv"] (fun _ => OpenResult.permissionDenied) =
        .error PyError.permissionError) :=
  ⟨rfl, rfl,
    C5_only_missing_file_recovered "count.py" "f.csv" _ _ rfl rfl⟩

/-- C8 counterexample: the field text `inf` is outside the spec's strict
base-10 literal grammar, yet Python's `float` parses it, so a row carrying
it at index 8 is counted into the total (which becomes infinite). -/
theorem C8_counterexample :
    specFloatLiteral "inf" = false ∧
      pyFloatOfString "inf" = some (PyFloat.inf false) ∧
      processRow (.finite 0) [] ["a", "b", "c", "d", "e", "f", "g", "h", "inf"] =
        .ok (PyFloat.inf false, []) :=
  ⟨by decide, by decide, rfl⟩

/-- Auxiliary: dropWhile is the identity when no element satisfies the
predicate. -/
theorem dropWhile_eq_self_of_none {α : Type} (p : α → Bool) (cs : List α)
    (h : ∀ c ∈ cs, p c = false) : cs.dropWhile p = cs := by
  cases cs with
  | nil => rfl
  | cons c rest =>
      rw [List.dropWhile_cons, if_neg (by simp [h c (List.mem_cons_self c rest)])]

/-- Auxiliary: whitespace stripping is the identity on whitespace-free
input. -/
theorem stripWS_eq_self (cs : List Char) (h : ∀ c ∈ cs, isPySpace c = false) :
    stripWS cs = cs := by
  unfold stripWS
  rw [dropWhile_eq_self_of_none _ _ h,
    dropWhile_eq_self_of_none _ _ (fun c hc => h c (List.mem_reverse.mp hc)),
    List.reverse_reverse]

/-- Auxiliary: takeWhile keeps everything when all elements satisfy the
predicate. -/
theorem takeWhile_eq_self_of_all {α : Type} (p : α → Bool) (cs : List α)
    (h : ∀ c ∈ cs, p c = true) : cs.takeWhile p = cs := by
  induction cs with
  | nil => rfl
  | cons c rest ih =>
      rw [List.takeWhile_cons, if_pos (h c (List.mem_cons_self c rest)),
        ih (fun x hx => h x (List.mem_cons_of_mem c hx))]

/-- Auxiliary: dropWhile drops everything when all elements satisfy the
predicate. -/
theorem dropWhile_eq_nil_of_all {α : Type} (p : α → Bool) (cs : List α)
    (h : ∀ c ∈ cs, p c = true) : cs.dropWhile p = [] := by
  induction cs with
  | nil => rfl
  | cons c rest ih =>
      rw [List.dropWhile_cons, if_pos (h c (List.mem_cons_self c rest))]
      exact ih (fun x hx => h x (List.mem_cons_of_mem c hx))

/-- Auxiliary: on underscore-free input, `digTail` is a plain digit span. -/
theorem digTail_no_us (cs : List Char) (h : '_' ∉ cs) :
    digTail cs = (cs.takeWhile Char.isDigit, cs.dropWhile Char.isDigit) := by
  induction cs with
  | nil => rfl
  | cons c rest ih =>
      have hc : ¬c = '_' := fun e => h (e ▸ List.mem_cons_self c rest)
      unfold digTail
      rw [List.takeWhile_cons, List.dropWhile_cons]
      by_cases hd : c.isDigit = true
      · simp only [if_neg hc, if_pos hd, ih (fun hm => h (List.mem_cons_of_mem c hm))]
      · simp only [if_neg hc, if_neg hd]

/-- Auxiliary: `digitPart` on a digit-headed, underscore-free input is a
plain digit span. -/
theorem digitPart_no_us (c : Char) (rest : List Char) (hd : c.isDigit = true)
    (h : '_' ∉ rest) :
    digitPart (c :: rest) =
      some ((c :: rest).takeWhile Char.isDigit, (c :: rest).dropWhile Char.isDigit) := by
  unfold digitPart
  simp only
  rw [if_pos hd, digTail_no_us rest h, List.takeWhile_cons, List.dropWhile_cons,
    if_pos hd, if_pos hd]

/-- Auxiliary: `digitPart` fails on non-digit-headed input. -/
theorem digitPart_not_digit (c : Char) (rest : List Char) (hd : c.isDigit = false) :
    digitPart (c :: rest) = none := by
  unfold digitPart
  simp only
  rw [if_neg (by simp [hd])]

/-- Auxiliary: `digitPart` consumes an all-digit, nonempty, underscore-free
input entirely. -/
theorem digitPart_all_digits (cs : List Char) (hne : cs ≠ [])
    (hall : ∀ c ∈ cs, c.isDigit = true) (hus : '_' ∉ cs) :
    digitPart cs = some (cs, []) := by
  cases cs with
  | nil => exact absurd rfl hne
  | cons c rest =>
      rw [digitPart_no_us c rest (hall c (List.mem_cons_self c rest))
          (fun hm => hus (List.mem_cons_of_mem c hm)),
        takeWhile_eq_self_of_all _ _ hall, dropWhile_eq_nil_of_all _ _ hall]

/-- Auxiliary: a digit character is not whitespace. -/
theorem isDigit_not_space (c : Char) (h : c.isDigit = true) : isPySpace c = false := by
  have k : ∀ x : Char, x.isDigit = false → ¬c = x := fun x hx e => by
    rw [e, hx] at h; exact Bool.noConfusion h
  unfold isPySpace
  simp [k ' ' (by decide), k '\t' (by decide), k '\n' (by decide), k '\r' (by decide),
    k '\x0b' (by decide), k '\x0c' (by decide)]

/-- Auxiliary: grammar characters are not whitespace. -/
theorem plainChar_not_space (c : Char) (h : plainChar c = true) : isPySpace c = false := by
  simp only [plainChar, Bool.or_eq_true, decide_eq_true_eq] at h
  rcases h with ((((hd | rfl) | rfl) | rfl) | rfl) | rfl
  · exact isDigit_not_space c hd
  all_goals decide

/-- Auxiliary: grammar characters are not underscores. -/
theorem plainChar_ne_us (c : Char) (h : plainChar c = true) : ¬c = '_' := by
  simp only [plainChar, Bool.or_eq_true, decide_eq_true_eq] at h
  rcases h with ((((hd | rfl) | rfl) | rfl) | rfl) | rfl
  · exact fun e => by rw [e] at hd; exact Bool.noConfusion hd
  all_goals decide

/-- Auxiliary: digits are below the uppercase letter range. -/
theorem isDigit_toNat_lt (c : Char) (h : c.isDigit = true) : c.toNat < 65 := by
  simp only [Char.isDigit, Bool.and_eq_true, decide_eq_true_eq] at h
  exact Nat.lt_of_le_of_lt h.2 (by decide)

/-- Auxiliary: lowercasing is the identity below the uppercase letter
range. -/
theorem toLower_eq_self_of_lt (c : Char) (h : c.toNat < 65) : c.toLower = c := by
  simp only [Char.toLower]
  rw [if_neg]
  simp only [Bool.and_eq_true, decide_eq_true_eq, not_and]
  omega

/-- Auxiliary: `dropSign` keeps everything but a possible leading sign. -/
theorem dropSign_split (cs : List Char) :
    cs = (dropSign cs).2 ∨ ∃ x, (x = '+' ∨ x = '-') ∧ cs = x :: (dropSign cs).2 := by
  cases cs with
  | nil => exact Or.inl rfl
  | cons x rest =>
      unfold dropSign
      simp only
      by_cases h1 : x = '+'
      · rw [if_pos h1]; exact Or.inr ⟨x, Or.inl h1, rfl⟩
      · rw [if_neg h1]
        by_cases h2 : x = '-'
        · rw [if_pos h2]; exact Or.inr ⟨x, Or.inr h2, rfl⟩
        · rw [if_neg h2]; exact Or.inl rfl

/-- Auxiliary: the unsigned part is a suffix of the input. -/
theorem dropSign_sublist (cs : List Char) (c : Char) (hc : c ∈ (dropSign cs).2) :
    c ∈ cs := by
  rcases dropSign_split cs with he | ⟨x, _, he⟩
  · rw [he]; exact hc
  · rw [he]; exact List.mem_cons_of_mem x hc

/-- Auxiliary: a spec exponent tail consists of grammar characters only. -/
theorem specExpRest_chars (r : List Char) (h : specExpRest r = true) :
    ∀ c ∈ r, plainChar c = true := by
  cases r with
  | nil => intro c hc; cases hc
  | cons e r1 =>
      simp only [specExpRest, Bool.and_eq_true, Bool.or_eq_true, decide_eq_true_eq,
        List.all_eq_true] at h
      obtain ⟨hee, hne, hdig⟩ := h
      intro c hc
      rcases List.mem_cons.mp hc with rfl | hc1
      · rcases hee with rfl | rfl <;> decide
      · rcases dropSign_split r1 with he | ⟨x, hx, he⟩
        · rw [he] at hc1
          simp [plainChar, hdig c hc1]
        · rw [he] at hc1
          rcases List.mem_cons.mp hc1 with rfl | hc2
          · rcases hx with rfl | rfl <;> decide
          · simp [plainChar, hdig c hc2]

/-- Auxiliary: consuming a spec mantissa only reads grammar characters,
given that the rest does. -/
theorem specMantissaRest_chars (cs r : List Char) (h : specMantissaRest cs = some r)
    (hr : ∀ c ∈ r, plainChar c = true) : ∀ c ∈ cs, plainChar c = true := by
  unfold specMantissaRest at h
  have hsplit := (List.takeWhile_append_dropWhile Char.isDigit cs).symm
  split at h
  · split at h
    · next r2 hcond =>
        split at h
        · cases h
        · injection h with hres
          intro c hc
          rcases List.mem_cons.mp hc with rfl | hc2
          · decide
          · have h2 := (List.takeWhile_append_dropWhile Char.isDigit r2).symm
            rw [h2] at hc2
            rcases List.mem_append.mp hc2 with htw | hdw
            · simp [plainChar, List.mem_takeWhile_imp htw]
            · exact hr c (hres ▸ hdw)
    · cases h
  · split at h
    · next r2 heq =>
        injection h with hres
        intro c hc
        rw [hsplit] at hc
        rcases List.mem_append.mp hc with htw | hdw
        · simp [plainChar, List.mem_takeWhile_imp htw]
        · rw [heq] at hdw
          rcases List.mem_cons.mp hdw with rfl | hc2
          · decide
          · have h2 := (List.takeWhile_append_dropWhile Char.isDigit r2).symm
            rw [h2] at hc2
            rcases List.mem_append.mp hc2 with htw2 | hdw2
            · simp [plainChar, List.mem_takeWhile_imp htw2]
            · exact hr c (hres ▸ hdw2)
    · next heq =>
        injection h with hres
        intro c hc
        rw [hsplit] at hc
        rcases List.mem_append.mp hc with htw | hdw
        · simp [plainChar, List.mem_takeWhile_imp htw]
        · exact hr c (hres ▸ hdw)

/-- Auxiliary: a spec mantissa starts with a digit or a dot. -/
theorem specMantissaRest_head (cs r : List Char) (h : specMantissaRest cs = some r) :
    ∃ c0 tail, cs = c0 :: tail ∧ (c0.isDigit = true ∨ c0 = '.') := by
  unfold specMantissaRest at h
  split at h
  · split at h
    · next r2 hcond =>
        split at h
        · cases h
        · exact ⟨'.', r2, rfl, Or.inr rfl⟩
    · cases h
  · next hne =>
      cases hcs : cs with
      | nil =>
          rw [hcs] at hne
          exact absurd rfl hne
      | cons c0 tail =>
          refine ⟨c0, tail, rfl, Or.inl ?_⟩
          by_contra hd
          rw [hcs, List.takeWhile_cons, if_neg hd] at hne
          exact hne rfl

/-- Auxiliary: `finishNumber` succeeds on a spec exponent tail. -/
theorem finishNumber_isSome (neg : Bool) (ids fds r : List Char)
    (he : specExpRest r = true) (hus : '_' ∉ r) :
    ∃ v, finishNumber neg ids fds r = some v := by
  cases r with
  | nil => exact ⟨_, rfl⟩
  | cons e r1 =>
      simp only [specExpRest, Bool.and_eq_true] at he
      obtain ⟨hee, hne, hdig⟩ := he
      have hd2 : digitPart (dropSign r1).2 = some ((dropSign r1).2, []) := by
        apply digitPart_all_digits
        · intro he2
          rw [he2] at hne
          exact Bool.noConfusion hne
        · exact fun c hc => List.all_eq_true.mp hdig c hc
        · exact fun hmem =>
            hus (List.mem_cons_of_mem e (dropSign_sublist r1 '_' hmem))
      simp only [finishNumber]
      rw [if_pos hee, hd2]
      exact ⟨_, rfl⟩

/-- Auxiliary: any string accepted by the spec-side strict grammar parses
successfully under Python float parsing. -/
theorem specFloat_accepted (s : String) (h : specFloatLiteral s = true) :
    ∃ v, pyFloatOfString s = some v := by
  unfold specFloatLiteral at h
  cases hm : specMantissaRest (dropSign s.toList).2 with
  | none => rw [hm] at h; simp only at h; exact Bool.noConfusion h
  | some r =>
      rw [hm] at h
      simp only at h
      have hrpl : ∀ c ∈ r, plainChar c = true := specExpRest_chars r h
      have hbody : ∀ c ∈ (dropSign s.toList).2, plainChar c = true :=
        specMantissaRest_chars _ r hm hrpl
      have hall : ∀ c ∈ s.toList, plainChar c = true := by
        intro c hc
        rcases dropSign_split s.toList with he | ⟨x, hx, he⟩
        · rw [he] at hc; exact hbody c hc
        · rw [he] at hc
          rcases List.mem_cons.mp hc with rfl | hc2
          · rcases hx with rfl | rfl <;> decide
          · exact hbody c hc2
      have hstrip : stripWS s.toList = s.toList :=
        stripWS_eq_self _ (fun c hc => plainChar_not_space c (hall c hc))
      have hbus : '_' ∉ (dropSign s.toList).2 :=
        fun hmem => plainChar_ne_us _ (hbody _ hmem) rfl
      have hrus : '_' ∉ r := fun hmem => plainChar_ne_us _ (hrpl _ hmem) rfl
      obtain ⟨c0, tail, hshape, hc0⟩ := specMantissaRest_head _ r hm
      have hc0ne : ¬c0 = 'i' ∧ ¬c0 = 'n' := by
        rcases hc0 with hd | rfl
        · exact ⟨fun e => by rw [e] at hd; exact Bool.noConfusion hd,
            fun e => by rw [e] at hd; exact Bool.noConfusion hd⟩
        · exact ⟨by decide, by decide⟩
      have hlow0 : c0.toLower = c0 := by
        rcases hc0 with hd | rfl
        · exact toLower_eq_self_of_lt c0 (isDigit_toNat_lt c0 hd)
        · decide
      have hlowshape : (dropSign s.toList).2.map Char.toLower =
          c0 :: tail.map Char.toLower := by
        rw [hshape, List.map_cons, hlow0]
      have hni1 : ¬((dropSign s.toList).2.map Char.toLower = "inf".toList) := by
        rw [hlowshape, show ("inf".toList : List Char) = ['i', 'n', 'f'] from rfl]
        intro heq; injection heq with h1 h2; exact hc0ne.1 h1
      have hni2 : ¬((dropSign s.toList).2.map Char.toLower = "infinity".toList) := by
        rw [hlowshape,
          show ("infinity".toList : List Char) = ['i','n','f','i','n','i','t','y'] from rfl]
        intro heq; injection heq with h1 h2; exact hc0ne.1 h1
      have hni3 : ¬((dropSign s.toList).2.map Char.toLower = "nan".toList) := by
        rw [hlowshape, show ("nan".toList : List Char) = ['n', 'a', 'n'] from rfl]
        intro heq; injection heq with h1 h2; exact hc0ne.2 h1
      simp only [pyFloatOfString]
      rw [hstrip]
      rw [if_neg (by
        simp only [Bool.or_eq_true, decide_eq_true_eq, not_or]
        exact ⟨hni1, hni2⟩), if_neg hni3]
      rw [hshape] at hm hbus ⊢
      have htus : '_' ∉ tail := fun hmem => hbus (List.mem_cons_of_mem c0 hmem)
      rcases hc0 with hd0 | rfl
      · -- digit-led mantissa
        rw [digitPart_no_us c0 tail hd0 htus]
        simp only
        have htwne : ¬(((c0 :: tail).takeWhile Char.isDigit).isEmpty = true) := by
          rw [List.takeWhile_cons, if_pos hd0]
          exact fun hcon => Bool.noConfusion hcon
        unfold specMantissaRest at hm
        rw [if_neg htwne] at hm
        rcases hdwe : (c0 :: tail).dropWhile Char.isDigit with _ | ⟨x, xs⟩
        · exact ⟨_, rfl⟩
        · rw [hdwe] at hm
          have hxus : '_' ∉ x :: xs := by
            intro hmem
            apply hbus
            rw [← List.takeWhile_append_dropWhile Char.isDigit (c0 :: tail), hdwe]
            exact List.mem_append.mpr (Or.inr hmem)
          by_cases hx : x = '.'
          · subst hx
            simp only at hm ⊢
            injection hm with hres
            rcases xs with _ | ⟨y, ys⟩
            · exact ⟨_, rfl⟩
            · have hyus : '_' ∉ ys := fun hmem =>
                hxus (List.mem_cons_of_mem '.' (List.mem_cons_of_mem y hmem))
              by_cases hy : y.isDigit = true
              · rw [digitPart_no_us y ys hy hyus]
                simp only
                rw [hres]
                exact finishNumber_isSome _ _ _ r h hrus
              · rw [digitPart_not_digit y ys (Bool.eq_false_iff.mpr hy)]
                simp only
                have hr2 : y :: ys = r := by
                  rw [← hres, List.dropWhile_cons, if_neg hy]
                rw [hr2]
                exact finishNumber_isSome _ _ _ r h hrus
          · split at hm
            · next r2 heq =>
                injection heq with h1 h2
                exact absurd h1 hx
            · injection hm with hres
              rw [hres]
              exact finishNumber_isSome _ _ _ r h hrus
      · -- dot-led mantissa
        rw [digitPart_not_digit '.' tail (by decide)]
        simp only
        have htw : ('.' :: tail).takeWhile Char.isDigit = [] := by
          rw [List.takeWhile_cons, if_neg (fun hcon => Bool.noConfusion hcon)]
        unfold specMantissaRest at hm
        rw [if_pos (by rw [htw]; rfl)] at hm
        simp only at hm
        split at hm
        · exact absurd hm (by simp)
        · next hne =>
            injection hm with hres
            rcases tail with _ | ⟨d, t2⟩
            · exact absurd rfl hne
            · have hd : d.isDigit = true := by
                by_contra hdc
                rw [List.takeWhile_cons, if_neg hdc] at hne
                exact hne rfl
              have ht2us : '_' ∉ t2 :=
                fun hmem => htus (List.mem_cons_of_mem d hmem)
              rw [digitPart_no_us d t2 hd ht2us]
              simp only
              rw [hres]
              exact finishNumber_isSome _ _ _ r h hrus

/-- C8 (amended): a field at index 8 whose text is a base-10 floating-point
literal — optional sign, digits with an optional decimal point, optional
exponent — is always parsed and counted into the total; however, such
literals are not the only counted forms: Python float parsing also accepts
(and the program also counts) surrounding whitespace, underscore digit
grouping, and the special forms inf/infinity/nan in any letter case. -/
theorem C8_strict_literal_counted (t : PyFloat) (out : List OutLine)
    (row : List String) (s : String)
    (h8 : row[8]? = some s) (hs : specFloatLiteral s = true) :
    ∃ v, pyFloatOfString s = some v ∧ processRow t out row = .ok (t.add v, out) := by
  obtain ⟨v, hv⟩ := specFloat_accepted s hs
  have hlen : 8 < row.length := (List.getElem?_eq_some.mp h8).1
  exact ⟨v, hv, by simp [processRow, h8, hv, show 1 < row.length from by omega]⟩

/-- C8 witness at the concrete scenario-A row with literal `10.5`. -/
theorem C8_strict_literal_counted_witness :
    (["a", "b", "c", "d", "e", "f", "g", "h", "10.5"] : List String)[8]? = some "10.5" ∧
      specFloatLiteral "10.5" = true ∧
      ∃ v, pyFloatOfString "10.5" = some v ∧
        processRow (.finite 0) [] ["a", "b", "c", "d", "e", "f", "g", "h", "10.5"] =
          .ok ((PyFloat.finite 0).add v, []) :=
  ⟨rfl, by decide,
    C8_strict_literal_counted (.finite 0) []
      ["a", "b", "c", "d", "e", "f", "g", "h", "10.5"] "10.5" rfl (by decide)⟩
